import Mathlib

/-!
Verification of the audio-encode segment permutation codec
(`src/components/AudioProcessor.tsx` and `src/components/AudioEditor.tsx`).

The TypeScript source is shallowly embedded here:
* JS numbers that hold durations, sample rates and intervals are modelled
  as exact rationals (`ℚ`); `Math.floor`/`Math.ceil` become `Int.floor`/
  `Int.ceil`.
* The decimal rendering of a JS number (its `toString`, used by
  `generateEncodingCode`) is modelled by the `Decimal` structure: an exact
  decimal `m / 10 ^ e` printed with `e` fractional digits.
* Strings are modelled as `List Char`; `String.prototype.split('b')`
  becomes `splitB`, and the prefix-parsing JS functions `parseInt` /
  `parseFloat` become `jsParseInt` / `jsParseFloat`.
* Segment sequences are plain lists; the array writes of the decoders
  (`reorderedSegments[finalPosition] = segment`) become `List.set` folds
  over `List (Option _)` followed by `filterMap id`, which is the model of
  `filter(Boolean)` on an array with holes.
-/

deriving instance DecidableEq for Except

/-- The character for a single decimal digit `d < 10`. -/
def digitChar (d : ℕ) : Char := Char.ofNat (48 + d)

/-- Fuel-driven digit expansion of a natural number, most significant digit
first.  Structural in the fuel so that the kernel can evaluate it. -/
def natToDigitsAux : ℕ → ℕ → List Char
  | 0, _ => []
  | fuel + 1, n =>
    if n < 10 then [digitChar n]
    else natToDigitsAux fuel (n / 10) ++ [digitChar (n % 10)]

/-- Decimal digit string of a natural number, the model of JS
`Number.prototype.toString` on a nonnegative integer. -/
def natToDigits (n : ℕ) : List Char := natToDigitsAux (n + 1) n

/-- Value of a digit string read left to right (the core of `parseInt`). -/
def digitsToNat (ds : List Char) : ℕ :=
  ds.foldl (fun a c => 10 * a + (c.toNat - 48)) 0

/-- An exact decimal number `m / 10 ^ e`, the model of the JS numbers
that appear in descriptor codes (interval values in `[0.001, 10]`). -/
structure Decimal where
  m : ℕ
  e : ℕ
deriving DecidableEq, Repr

/-- Rational value of a `Decimal`. -/
def Decimal.val (d : Decimal) : ℚ := (d.m : ℚ) / (10 : ℚ) ^ d.e

/-- Left-pad a digit string with zeros to length `e`. -/
def padZeros (e : ℕ) (ds : List Char) : List Char :=
  List.replicate (e - ds.length) '0' ++ ds

/-- Decimal rendering of a `Decimal`: integer part, and when `e > 0` a
point followed by exactly `e` fractional digits.  Models JS numeric
`toString` for the decimal values the encoder holds. -/
def Decimal.toChars (d : Decimal) : List Char :=
  if d.e = 0 then natToDigits d.m
  else natToDigits (d.m / 10 ^ d.e) ++ '.' :: padZeros d.e (natToDigits (d.m % 10 ^ d.e))

/-- The `EncodingType` of the source (`'none' | 'split' | 'oddEven'`),
with the Split scheme carrying its `numberOfParts`. -/
inductive EncodingScheme
  | noScheme
  | split (parts : ℕ)
  | oddEven
deriving DecidableEq, Repr

/-- The encoder state that `generateEncodingCode` serializes:
encoding type (with parts), interval and the reverse flag. -/
structure EncodingParams where
  scheme : EncodingScheme
  interval : Decimal
  reversed : Bool
deriving DecidableEq, Repr

/-- Validity of `EncodingParams` as the spec constrains them:
a scheme other than `None`, `parts ∈ [2,10]` for Split, and an interval
value in `[0.001, 10]`.
The interval bounds `0.001 ≤ value` and `value ≤ 10` are stated as the
equivalent integer comparisons on the exact decimal `m / 10 ^ e`
(`decimalLowBound_iff` and `decimalHighBound_iff` below prove the
equivalence), so that the kernel can evaluate them. -/
def validParams (p : EncodingParams) : Bool :=
  (match p.scheme with
   | .noScheme => false
   | .split parts => decide (2 ≤ parts) && decide (parts ≤ 10)
   | .oddEven => true)
  && decide (10 ^ p.interval.e ≤ 1000 * p.interval.m)
  && decide (p.interval.m ≤ 10 * 10 ^ p.interval.e)

/-- `generateEncodingCode` of `AudioProcessor.tsx` (lines 184-193):
type prefix, `b`-prefixed parts code (bare `b` for oddEven), `b`-prefixed
interval, and the final `t`/`f` reverse flag.  Empty for scheme `none`. -/
def generateEncodingCode (p : EncodingParams) : List Char :=
  match p.scheme with
  | .noScheme => []
  | .split parts =>
    let typeTag := ['s']
    let partsCode := 'b' :: natToDigits parts
    let intervalCode := 'b' :: p.interval.toChars
    let reverseCode := [if p.reversed then 't' else 'f']
    typeTag ++ partsCode ++ intervalCode ++ reverseCode
  | .oddEven =>
    let typeTag := ['o', 'e']
    let partsCode := ['b']
    let intervalCode := 'b' :: p.interval.toChars
    let reverseCode := [if p.reversed then 't' else 'f']
    typeTag ++ partsCode ++ intervalCode ++ reverseCode

/-- `code.split('b')` of JS: splits into the (possibly empty) chunks
between occurrences of `'b'`; the empty string yields `[[]]`. -/
def splitB : List Char → List (List Char)
  | [] => [[]]
  | c :: cs =>
    if c = 'b' then [] :: splitB cs
    else
      match splitB cs with
      | [] => [[c]]
      | h :: t => (c :: h) :: t

/-- JS `parseInt` (radix 10) on the inputs the parser feeds it: reads the
longest prefix of decimal digits; `none` models `NaN` (no digits). -/
def jsParseInt (cs : List Char) : Option ℕ :=
  let ds := cs.takeWhile Char.isDigit
  if ds.isEmpty then none else some (digitsToNat ds)

/-- JS `parseFloat` on the inputs the parser feeds it: reads the longest
prefix of the form `digits [. digits]`, ignoring anything after it;
`none` models `NaN`.  The parsed value is returned as a `Decimal`. -/
def jsParseFloat (cs : List Char) : Option Decimal :=
  let intDs := cs.takeWhile Char.isDigit
  let rest := cs.dropWhile Char.isDigit
  let fracDs :=
    match rest with
    | '.' :: r => r.takeWhile Char.isDigit
    | _ => []
  if intDs.isEmpty && fracDs.isEmpty then none
  else some ⟨digitsToNat intDs * 10 ^ fracDs.length + digitsToNat fracDs, fracDs.length⟩

/-- The named failure points of §4.4/§7 of the spec.  The source's
`parseEncodingCode` reports every failure as the single boolean `false`;
each `return false` site is tagged here with the spec's name for the
check performed at that site. -/
inductive ParseError
  | malformedCode
  | invalidReverseFlag
  | intervalOutOfRange
  | partsOutOfRange
  | unknownType
deriving DecidableEq, Repr

/-- The body of `parseEncodingCode` after the `split('b')` step:
everything the source does with the `[type, partsStr, intervalWithReverse]`
fields.  Check order follows the source exactly:
field count, nonempty type/interval fields, reverse flag, interval value
and range, then type dispatch with the parts check for `s` and the
empty-parts check for `oe`.  The range check
`interval < 0.001 || interval > 10` is stated as the equivalent integer
comparison on the exact decimal `m / 10 ^ e` (see `decimalLowBound_iff`
and `decimalHighBound_iff`), keeping the function kernel-evaluable. -/
def parseFields : List (List Char) → Except ParseError EncodingParams
  | [type, partsStr, intervalWithReverse] =>
    if type.isEmpty || intervalWithReverse.isEmpty then .error .malformedCode
    else
      match intervalWithReverse.getLast? with
      | none => .error .malformedCode
      | some rv =>
        if rv ≠ 't' ∧ rv ≠ 'f' then .error .invalidReverseFlag
        else
          match jsParseFloat intervalWithReverse.dropLast with
          | none => .error .intervalOutOfRange
          | some d =>
            if 1000 * d.m < 10 ^ d.e ∨ 10 * 10 ^ d.e < d.m then .error .intervalOutOfRange
            else if type = ['s'] then
              match jsParseInt partsStr with
              | none => .error .partsOutOfRange
              | some parts =>
                if parts < 2 ∨ 10 < parts then .error .partsOutOfRange
                else .ok ⟨.split parts, d, rv = 't'⟩
            else if type = ['o', 'e'] then
              if partsStr ≠ [] then .error .malformedCode
              else .ok ⟨.oddEven, d, rv = 't'⟩
            else .error .unknownType
  | _ => .error .malformedCode

/-- `parseEncodingCode` of `AudioProcessor.tsx` (lines 195-231), with the
accepted parameters made explicit (the source stores them into component
state and returns `true`): split the code on `'b'` and process the
resulting fields. -/
def parseEncodingCodeE (code : List Char) : Except ParseError EncodingParams :=
  parseFields (splitB code)

/-- Forward Split permutation, the `encodingType === 'split'` branch of
`encodeAudio` (lines 248-268): divide the list into `numberOfParts`
contiguous blocks of `Math.ceil(n / numberOfParts)` elements (`slice`
clamps the final blocks), then round-robin across the blocks, pushing
`part[i]` only when it exists. -/
def splitForward {α : Type} (numberOfParts : ℕ) (segments : List α) : List α :=
  let segmentsPerPart := (segments.length + numberOfParts - 1) / numberOfParts
  let parts := (List.range numberOfParts).map (fun i =>
    let startIdx := i * segmentsPerPart
    let endIdx := min ((i + 1) * segmentsPerPart) segments.length
    (segments.drop startIdx).take (endIdx - startIdx))
  let maxLength := (parts.map List.length).foldr max 0
  (List.range maxLength).flatMap (fun i => parts.filterMap (fun part => part[i]?))

/-- Inverse Split permutation, the `decodingType === 'split'` branch of
`decodeAudio` (lines 325-344): for the segment at permuted index `idx`,
`finalPosition = (idx % k) * segmentsPerPart + idx / k`; positions
`≥ totalSegments` are dropped, and the unfilled (`undefined`) slots are
removed by `filter(Boolean)`, modelled as `filterMap id` over option
slots. -/
def splitInverse {α : Type} (decodeNumberOfParts : ℕ) (segments : List α) : List α :=
  let totalSegments := segments.length
  let segmentsPerPart := (totalSegments + decodeNumberOfParts - 1) / decodeNumberOfParts
  let slots := segments.enum.foldl
    (fun (acc : List (Option α)) p =>
      let partIndex := p.1 % decodeNumberOfParts
      let positionInPart := p.1 / decodeNumberOfParts
      let finalPosition := partIndex * segmentsPerPart + positionInPart
      if finalPosition < totalSegments then acc.set finalPosition (some p.2) else acc)
    (List.replicate totalSegments (none : Option α))
  slots.filterMap id

/-- Forward OddEven permutation, the `encodingType === 'oddEven'` branch
of `encodeAudio` (lines 269-274): the elements at even original indices
(`i % 2 === 0`), then the elements at odd original indices. -/
def oddEvenForward {α : Type} (segments : List α) : List α :=
  let odd := (segments.enum.filter (fun p => p.1 % 2 == 0)).map Prod.snd
  let even := (segments.enum.filter (fun p => p.1 % 2 == 1)).map Prod.snd
  odd ++ even

/-- Inverse OddEven permutation, the `decodingType === 'oddEven'` branch
of `decodeAudio` (lines 346-368): the first `Math.ceil(n / 2)` permuted
elements go back to slots `0, 2, 4, …`, the rest to slots `1, 3, 5, …`
(guarded by `index * 2 + 1 < totalSegments`), then `filter(Boolean)`. -/
def oddEvenInverse {α : Type} (segments : List α) : List α :=
  let totalSegments := segments.length
  let oddCount := (totalSegments + 1) / 2
  let odds := segments.take oddCount
  let evens := segments.drop oddCount
  let slots₁ := odds.enum.foldl
    (fun (acc : List (Option α)) p => acc.set (p.1 * 2) (some p.2))
    (List.replicate totalSegments (none : Option α))
  let slots₂ := evens.enum.foldl
    (fun (acc : List (Option α)) p =>
      if p.1 * 2 + 1 < totalSegments then acc.set (p.1 * 2 + 1) (some p.2) else acc)
    slots₁
  slots₂.filterMap id

/-- The elements of a list at even positions `0, 2, 4, …` (recursive
form of the source's `filter((_, i) => i % 2 === 0)`, used to reason
about `oddEvenForward` by induction). -/
def evensOf {α : Type} : List α → List α
  | [] => []
  | [a] => [a]
  | a :: _ :: l => a :: evensOf l

/-- The elements of a list at odd positions `1, 3, 5, …` (recursive form
of the source's `filter((_, i) => i % 2 === 1)`). -/
def oddsOf {α : Type} (l : List α) : List α := evensOf l.tail

/-- The `(start, end)` spans produced by `createAudioSegments` of
`AudioProcessor.tsx` (lines 49-85): `Math.ceil(duration / segmentDuration)`
spans with `start = i * segmentDuration` and
`end = Math.min((i+1) * segmentDuration, duration)`. -/
def createAudioSegmentsSpans (duration segmentDuration : ℚ) : List (ℚ × ℚ) :=
  let numberOfSegments := (Int.ceil (duration / segmentDuration)).toNat
  (List.range numberOfSegments).map (fun (i : ℕ) =>
    ((i : ℚ) * segmentDuration, min (((i : ℚ) + 1) * segmentDuration) duration))

/-- `createAudioSegments` of `AudioEditor.tsx` (lines 67-87):
`Math.floor(totalDuration / interval)` spans of the full interval (the
loop runs zero times when the floor is negative, hence `toNat`), plus a
final remainder span when `segmentCount * interval < totalDuration`,
where the comparison uses the raw (possibly negative) count. -/
def editorCreateAudioSegments (totalDuration interval : ℚ) : List (ℚ × ℚ) :=
  let segmentCount : ℤ := Int.floor (totalDuration / interval)
  let segments := (List.range segmentCount.toNat).map (fun (i : ℕ) =>
    ((i : ℚ) * interval, min (((i : ℚ) + 1) * interval) totalDuration))
  if (segmentCount : ℚ) * interval < totalDuration then
    segments ++ [((segmentCount : ℚ) * interval, totalDuration)]
  else segments

/-- Modelled from the spec's wording of segmentation (§4.1 / claim C5):
`floor(D/I)` spans `[i*I, (i+1)*I]` followed by one final span
`[floor(D/I)*I, D]` exactly when the remainder is strictly positive. -/
def specSegmentSpans (duration interval : ℚ) : List (ℚ × ℚ) :=
  let k := (Int.floor (duration / interval)).toNat
  (List.range k).map (fun (i : ℕ) => ((i : ℚ) * interval, ((i : ℚ) + 1) * interval))
    ++ (if (k : ℚ) * interval < duration then [((k : ℚ) * interval, duration)] else [])

/-- `MAX_SEGMENT_SIZE` of `AudioProcessor.tsx` line 12. -/
def MAX_SEGMENT_SIZE : ℕ := 1024 * 1024

/-- The per-segment sample counts allocated by `createAudioSegments` of
`AudioProcessor.tsx` (lines 49-85) for a buffer of `bufLen` samples per
channel: `segmentLength = Math.min(Math.floor((end - start) * sampleRate),
maxSamplesPerSegment)` with `maxSamplesPerSegment =
Math.min(Math.floor(segmentDuration * sampleRate),
MAX_SEGMENT_SIZE / numberOfChannels)` and
`duration = bufLen / sampleRate`. -/
def createAudioSegmentsLengths (bufLen : ℕ) (sampleRate : ℚ)
    (numberOfChannels : ℕ) (segmentDuration : ℚ) : List ℚ :=
  let duration : ℚ := (bufLen : ℚ) / sampleRate
  let numberOfSegments := (Int.ceil (duration / segmentDuration)).toNat
  let maxSamplesPerSegment : ℚ :=
    min ((Int.floor (segmentDuration * sampleRate) : ℚ))
      ((MAX_SEGMENT_SIZE : ℚ) / (numberOfChannels : ℚ))
  (List.range numberOfSegments).map (fun (i : ℕ) =>
    let start := (i : ℚ) * segmentDuration
    let stop := min (((i : ℚ) + 1) * segmentDuration) duration
    min ((Int.floor ((stop - start) * sampleRate) : ℚ)) maxSamplesPerSegment)

/-- `processInBatches` of `AudioProcessor.tsx` (lines 87-117), content
view: the result buffer holds, per channel, the concatenation of the
segments' samples for that channel, in sequence order (batching and the
yield points do not affect the result). -/
def processInBatches (numberOfChannels : ℕ) (segments : List (List (List ℚ))) :
    List (List ℚ) :=
  (List.range numberOfChannels).map (fun channel =>
    (segments.map (fun segment => segment.getD channel [])).flatten)

/-- `reverseAudioBuffer` of `AudioProcessor.tsx` (lines 119-135): a new
buffer with `reversedData[i] = channelData[channelData.length - 1 - i]`
for every channel. -/
def reverseAudioBuffer (buffer : List (List ℚ)) : List (List ℚ) :=
  buffer.map (fun channelData =>
    (List.range channelData.length).map (fun i =>
      channelData.getD (channelData.length - 1 - i) 0))

/-- C1: the Split forward permutation followed by the Split inverse does
NOT always reproduce the original order.  For `n = 5` segments and
`k = 4` parts, the forward pass (block size 2, blocks `[0,1] [2,3] [4] []`)
yields `[0,2,4,1,3]`; the inverse then sends permuted index 3 (segment 1)
to `finalPosition = 3 * 2 + 0 = 6 ≥ 5`, dropping it, and deposits
segment 3 into slot 1, so the decoded order is `[0,3,2,4]` — one segment
lost and two transposed. -/
theorem split_roundTrip_fails_n5_k4 :
    splitForward 4 [0, 1, 2, 3, 4] = [0, 2, 4, 1, 3] ∧
    splitInverse 4 (splitForward 4 [0, 1, 2, 3, 4]) = [0, 3, 2, 4] ∧
    splitInverse 4 (splitForward 4 [0, 1, 2, 3, 4]) ≠ [0, 1, 2, 3, 4] := by
  refine ⟨by decide, by decide, by decide⟩

/-- C4: segmentation does not conserve samples.  For a buffer of 3
samples per channel at `sampleRate = 2` (duration `1.5 s`), one channel,
and the valid interval `0.75 s`, each of the two segments gets
`Math.floor(0.75 * 2) = 1` sample, so the segments hold 2 samples in
total while the source holds 3. -/
theorem segmentation_loses_samples :
    (createAudioSegmentsLengths 3 2 1 (3 / 4)).sum = 2 ∧ ((2 : ℚ) ≠ 3) := by
  constructor
  · have hceil : Int.ceil (((3 : ℚ)) / 2 / (3 / 4)) = 2 := by norm_num
    simp only [createAudioSegmentsLengths, MAX_SEGMENT_SIZE]
    norm_num [hceil, min_def]
    rw [show Int.toNat 2 = 2 from rfl]
    norm_num [List.range_succ]
  · norm_num

/-- C8 counterexample: `parse("oebb0.2bt")` does not succeed — the string
splits on `'b'` into the four fields `["oe", "", "0.2", "t"]`, so the
parser rejects it at the field-count check (`MalformedCode`), not as an
OddEven code. -/
theorem parse_oebb02bt_rejected :
    parseEncodingCodeE ['o', 'e', 'b', 'b', '0', '.', '2', 'b', 't'] =
      .error .malformedCode ∧
    (Except.error ParseError.malformedCode ≠
      (Except.ok (⟨.oddEven, ⟨2, 1⟩, true⟩ : EncodingParams) :
        Except ParseError EncodingParams)) := by
  refine ⟨by decide, by decide⟩

/-- C8 amended: the well-formed OddEven code carries the reverse flag
directly after the interval (`"oebb0.2t"`, an empty parts field between
the two `b` separators), and it parses to OddEven, interval `0.2`
(the decimal `2 / 10 ^ 1`), reversed `true`. -/
theorem parse_oebb02t_ok :
    parseEncodingCodeE ['o', 'e', 'b', 'b', '0', '.', '2', 't'] =
      .ok ⟨.oddEven, ⟨2, 1⟩, true⟩ := by decide

/-- C9 counterexample: `parse("sb1b0.2bt")` is rejected, but with the
field-count error (`MalformedCode`, four fields `["s","1","0.2","t"]`),
not with `PartsOutOfRange`. -/
theorem parse_sb1b02bt_malformed :
    parseEncodingCodeE ['s', 'b', '1', 'b', '0', '.', '2', 'b', 't'] =
      .error .malformedCode ∧
    ParseError.malformedCode ≠ ParseError.partsOutOfRange := by
  refine ⟨by decide, by decide⟩

/-- C9 amended: the three strings of the claim all fail with the
field-count check (`MalformedCode`), because the reverse flag follows the
interval directly, with no `b` separator before it; the corresponding
3-field strings fail with exactly the named errors: `"sb1b0.2t"` with
`PartsOutOfRange` (parts = 1 < 2), `"sb5b0.2x"` with `InvalidReverseFlag`,
and `"xb5b0.2t"` with `UnknownType`. -/
theorem parse_rejections_amended :
    parseEncodingCodeE ['s', 'b', '1', 'b', '0', '.', '2', 'b', 't'] =
      .error .malformedCode ∧
    parseEncodingCodeE ['s', 'b', '5', 'b', '0', '.', '2', 'b', 'x'] =
      .error .malformedCode ∧
    parseEncodingCodeE ['x', 'b', '5', 'b', '0', '.', '2', 'b', 't'] =
      .error .malformedCode ∧
    parseEncodingCodeE ['s', 'b', '1', 'b', '0', '.', '2', 't'] =
      .error .partsOutOfRange ∧
    parseEncodingCodeE ['s', 'b', '5', 'b', '0', '.', '2', 'x'] =
      .error .invalidReverseFlag ∧
    parseEncodingCodeE ['x', 'b', '5', 'b', '0', '.', '2', 't'] =
      .error .unknownType := by
  refine ⟨by decide, by decide, by decide, by decide, by decide, by decide⟩

/-- C10: the parser accepts strings outside the descriptor grammar
because its numeric fields are read with prefix parsing: `"sb5xb0.2t"`
has the non-numeric parts field `"5x"`, yet `parseInt` reads the prefix
`5` and the code parses to Split with parts 5, interval `0.2`
(the decimal `2 / 10 ^ 1`), reversed `true`. -/
theorem parse_accepts_nonGrammar_sb5xb02t :
    parseEncodingCodeE ['s', 'b', '5', 'x', 'b', '0', '.', '2', 't'] =
      .ok ⟨.split 5, ⟨2, 1⟩, true⟩ ∧
    (['5', 'x'].all Char.isDigit) = false := by
  refine ⟨by decide, by decide⟩

/-- C7 counterexample: segmentation performs no parameter validation and
raises nothing.  Called with the non-positive interval `-1` on a 5-second
duration, both `createAudioSegments` implementations proceed and return
the empty segment list (in `AudioProcessor` the ceiling of `5 / -1` is
negative so the loop never runs; in `AudioEditor` the floor is `-5`, the
loop never runs, and `(-5) * (-1) < 5` is false so no remainder span is
pushed) — there is no `InvalidParameter` error anywhere in the source. -/
theorem segmentation_no_validation :
    createAudioSegmentsSpans 5 (-1) = [] ∧
    editorCreateAudioSegments 5 (-1) = [] := by
  have hq : ((5 : ℚ) / (-1)) = ((-5 : ℤ) : ℚ) := by norm_num
  constructor
  · have h : Int.ceil ((5 : ℚ) / (-1)) = -5 := by rw [hq, Int.ceil_intCast]
    simp [createAudioSegmentsSpans, h]
  · have h : Int.floor ((5 : ℚ) / (-1)) = -5 := by rw [hq, Int.floor_intCast]
    simp only [editorCreateAudioSegments, h]
    norm_num

/-- The per-channel index-reversal loop of `reverseAudioBuffer` writes
exactly the reversed channel data. -/
theorem reverseChannel_eq_reverse (l : List ℚ) :
    (List.range l.length).map (fun i => l.getD (l.length - 1 - i) 0) = l.reverse := by
  apply List.ext_getElem?
  intro i
  rcases Nat.lt_or_ge i l.length with h | h
  · rw [List.getElem?_map, List.getElem?_range h, Option.map_some']
    rw [List.getElem?_reverse h]
    have hb : l.length - 1 - i < l.length := by omega
    rw [List.getD_eq_getElem?_getD, List.getElem?_eq_getElem hb]
    rfl
  · rw [List.getElem?_eq_none, List.getElem?_eq_none]
    · simpa using h
    · simpa using h

/-- C6 counterexample: the reversal stage of `AudioProcessor`
(`reverseAudioBuffer`, applied to the assembled buffer) is not the
segment-order reversal the claim describes.  For the two one-channel
segments `[1,2]` and `[3,4]`, reversing the assembled buffer gives
`[4,3,2,1]`, while reversing the segment order and assembling gives
`[3,4,1,2]`: the buffer reversal also reverses each segment's internal
samples. -/
theorem reversal_reverses_samples_counterexample :
    reverseAudioBuffer (processInBatches 1 [[[1, 2]], [[3, 4]]]) = [[4, 3, 2, 1]] ∧
    processInBatches 1 (List.reverse [[[1, 2]], [[3, 4]]]) = [[3, 4, 1, 2]] ∧
    ([[(4 : ℚ), 3, 2, 1]] : List (List ℚ)) ≠ [[3, 4, 1, 2]] := by
  refine ⟨by decide, by decide, by decide⟩

/-- C6 amended: in `AudioProcessor` the reversal stage reverses the
assembled buffer's samples per channel (`reverseAudioBuffer b` is the
per-channel `List.reverse` of `b`), which reverses both the segment
order and each segment's internal sample order; only the `AudioEditor`
variant (`reorderedSegments.reverse()`, a plain array reversal) permutes
whole segments leaving their content unchanged. -/
theorem reverseAudioBuffer_eq_channelReverse (buffer : List (List ℚ)) :
    reverseAudioBuffer buffer = buffer.map List.reverse := by
  unfold reverseAudioBuffer
  exact List.map_congr_left (fun l _ => reverseChannel_eq_reverse l)

/-- C5: both `createAudioSegments` implementations produce exactly the
spans the spec describes: `floor(D/I)` spans `[i*I, (i+1)*I]` and one
final span `[floor(D/I)*I, D]` exactly when the remainder is strictly
positive (`AudioProcessor` reaches this shape through `ceil(D/I)` spans
whose ends are clamped with `min`; `AudioEditor` builds it directly). -/
theorem segmentation_spans_spec (D I : ℚ) (hD : 0 ≤ D) (hI : 0 < I) :
    createAudioSegmentsSpans D I = specSegmentSpans D I ∧
    editorCreateAudioSegments D I = specSegmentSpans D I := by
  have hx : 0 ≤ D / I := div_nonneg hD hI.le
  have hk0 : 0 ≤ Int.floor (D / I) := Int.floor_nonneg.mpr hx
  obtain ⟨kn, hcast⟩ : ∃ n : ℕ, (n : ℤ) = Int.floor (D / I) :=
    ⟨(Int.floor (D / I)).toNat, Int.toNat_of_nonneg hk0⟩
  have hknle : (kn : ℚ) * I ≤ D := by
    have h1 : ((kn : ℚ)) ≤ D / I := by
      calc ((kn : ℚ)) = ((kn : ℤ) : ℚ) := by push_cast; ring
        _ = ((Int.floor (D / I) : ℤ) : ℚ) := by rw [hcast]
        _ ≤ D / I := Int.floor_le _
    calc (kn : ℚ) * I ≤ (D / I) * I := mul_le_mul_of_nonneg_right h1 hI.le
      _ = D := by field_simp
  have hlt : D < ((kn : ℚ) + 1) * I := by
    have h1 : D / I < (kn : ℚ) + 1 := by
      have h2 : D / I < ((Int.floor (D / I) : ℤ) : ℚ) + 1 := Int.lt_floor_add_one _
      rw [← hcast] at h2
      push_cast at h2 ⊢
      exact h2
    calc D = (D / I) * I := by field_simp
      _ < ((kn : ℚ) + 1) * I := mul_lt_mul_of_pos_right h1 hI
  have hfull : ∀ i : ℕ, i < kn → ((i : ℚ) + 1) * I ≤ D := by
    intro i hi
    have h1 : ((i : ℚ) + 1) ≤ (kn : ℚ) := by exact_mod_cast Nat.succ_le_of_lt hi
    calc ((i : ℚ) + 1) * I ≤ (kn : ℚ) * I := mul_le_mul_of_nonneg_right h1 hI.le
      _ ≤ D := hknle
  have hmapeq : (List.range kn).map
      (fun (i : ℕ) => ((i : ℚ) * I, min (((i : ℚ) + 1) * I) D)) =
      (List.range kn).map (fun (i : ℕ) => ((i : ℚ) * I, ((i : ℚ) + 1) * I)) := by
    apply List.map_congr_left
    intro i hi
    rw [min_eq_left (hfull i (List.mem_range.mp hi))]
  constructor
  · simp only [createAudioSegmentsSpans, specSegmentSpans, ← hcast,
      Int.toNat_natCast, Int.cast_natCast]
    by_cases hrem : (kn : ℚ) * I < D
    · have hceil : Int.ceil (D / I) = (kn : ℤ) + 1 := by
        have hlo : (kn : ℤ) < Int.ceil (D / I) := by
          rw [Int.lt_ceil]
          push_cast
          rw [lt_div_iff hI]
          exact hrem
        have hhi : Int.ceil (D / I) ≤ (kn : ℤ) + 1 := by
          rw [Int.ceil_le]
          push_cast
          rw [div_le_iff hI]
          exact hlt.le
        omega
      rw [hceil, show ((kn : ℤ) + 1).toNat = kn + 1 by omega]
      rw [List.range_succ, List.map_append, if_pos hrem, hmapeq]
      congr 1
      simp [min_eq_right hlt.le]
    · have hD' : D = (kn : ℚ) * I := le_antisymm (not_lt.mp hrem) hknle
      have hceil : Int.ceil (D / I) = (kn : ℤ) := by
        have hdiv : D / I = ((kn : ℤ) : ℚ) := by
          rw [hD']; push_cast; field_simp
        rw [hdiv, Int.ceil_intCast]
      rw [hceil, Int.toNat_natCast, if_neg hrem, List.append_nil, hmapeq]
  · simp only [editorCreateAudioSegments, specSegmentSpans, ← hcast,
      Int.toNat_natCast, Int.cast_natCast]
    rw [hmapeq]
    by_cases hrem : (kn : ℚ) * I < D
    · rw [if_pos hrem, if_pos hrem]
    · rw [if_neg hrem, if_neg hrem, List.append_nil]

/-- C5 witness at `D = 1.5`, `I = 1`. -/
theorem segmentation_spans_spec_witness :
    (0 : ℚ) ≤ 3 / 2 ∧ (0 : ℚ) < 1 ∧
    (createAudioSegmentsSpans (3 / 2) 1 = specSegmentSpans (3 / 2) 1 ∧
     editorCreateAudioSegments (3 / 2) 1 = specSegmentSpans (3 / 2) 1) :=
  ⟨by norm_num, by norm_num, segmentation_spans_spec (3 / 2) 1 (by norm_num) (by norm_num)⟩

theorem evensOf_cons {α : Type} (a : α) (l : List α) :
    evensOf (a :: l) = a :: oddsOf l := by
  cases l <;> rfl

theorem oddsOf_cons {α : Type} (a : α) (l : List α) :
    oddsOf (a :: l) = evensOf l := rfl

/-- `filter((_, i) => i % 2 === 0)` over an enumeration starting at `k`
picks the even- or odd-position elements according to the parity of `k`. -/
theorem enumFrom_filter_even {α : Type} :
    ∀ (l : List α) (k : ℕ),
      ((List.enumFrom k l).filter (fun p => p.1 % 2 == 0)).map Prod.snd =
        if k % 2 = 0 then evensOf l else oddsOf l
  | [], k => by
    have he : List.enumFrom k ([] : List α) = [] := rfl
    rw [he, List.filter_nil, List.map_nil]
    split <;> rfl
  | a :: t, k => by
    have he : List.enumFrom k (a :: t) = (k, a) :: List.enumFrom (k + 1) t := rfl
    have hrec := enumFrom_filter_even t (k + 1)
    rw [he, List.filter_cons]
    rcases Nat.mod_two_eq_zero_or_one k with h | h
    · rw [if_pos h, evensOf_cons]
      rw [if_pos (show (((k, a).1 % 2 == 0) = true) by simp [h]), List.map_cons, hrec,
        if_neg (show ¬((k + 1) % 2 = 0) by omega)]
    · rw [if_neg (show ¬(k % 2 = 0) by omega), oddsOf_cons]
      rw [if_neg (show ¬(((k, a).1 % 2 == 0) = true) by simp [h]), hrec,
        if_pos (show (k + 1) % 2 = 0 by omega)]

/-- `filter((_, i) => i % 2 === 1)` over an enumeration starting at `k`
picks the odd- or even-position elements according to the parity of `k`. -/
theorem enumFrom_filter_odd {α : Type} :
    ∀ (l : List α) (k : ℕ),
      ((List.enumFrom k l).filter (fun p => p.1 % 2 == 1)).map Prod.snd =
        if k % 2 = 0 then oddsOf l else evensOf l
  | [], k => by
    have he : List.enumFrom k ([] : List α) = [] := rfl
    rw [he, List.filter_nil, List.map_nil]
    split <;> rfl
  | a :: t, k => by
    have he : List.enumFrom k (a :: t) = (k, a) :: List.enumFrom (k + 1) t := rfl
    have hrec := enumFrom_filter_odd t (k + 1)
    rw [he, List.filter_cons]
    rcases Nat.mod_two_eq_zero_or_one k with h | h
    · rw [if_pos h, oddsOf_cons]
      rw [if_neg (show ¬(((k, a).1 % 2 == 1) = true) by simp [h]), hrec,
        if_neg (show ¬((k + 1) % 2 = 0) by omega)]
    · rw [if_neg (show ¬(k % 2 = 0) by omega), evensOf_cons]
      rw [if_pos (show (((k, a).1 % 2 == 1) = true) by simp [h]), List.map_cons, hrec,
        if_pos (show (k + 1) % 2 = 0 by omega)]

theorem evensOf_oddsOf_length {α : Type} :
    ∀ l : List α, (evensOf l).length = (l.length + 1) / 2 ∧
      (oddsOf l).length = l.length / 2
  | [] => by constructor <;> simp [evensOf, oddsOf]
  | a :: t => by
    have ht := evensOf_oddsOf_length t
    rw [evensOf_cons, oddsOf_cons]
    constructor
    · simp only [List.length_cons, ht.2]
      omega
    · simp only [ht.1, List.length_cons]

theorem evensOf_oddsOf_getElem {α : Type} :
    ∀ (l : List α) (i : ℕ), (evensOf l)[i]? = l[2 * i]? ∧
      (oddsOf l)[i]? = l[2 * i + 1]?
  | [], i => by constructor <;> rfl
  | a :: t, i => by
    have ht := fun j => evensOf_oddsOf_getElem t j
    rw [evensOf_cons, oddsOf_cons]
    constructor
    · match i with
      | 0 => simp
      | i + 1 =>
        rw [List.getElem?_cons_succ, (ht i).2,
          show 2 * (i + 1) = (2 * i + 1) + 1 by omega, List.getElem?_cons_succ]
    · rw [(ht i).1, show 2 * i + 1 = (2 * i) + 1 by omega, List.getElem?_cons_succ]

/-- A fold whose step preserves list length preserves it overall. -/
theorem foldl_length_preserve {α β : Type}
    (g : List (Option α) → β → List (Option α))
    (hg : ∀ acc x, (g acc x).length = acc.length) :
    ∀ (xs : List β) (acc : List (Option α)), (xs.foldl g acc).length = acc.length
  | [], _ => rfl
  | x :: t, acc => by
    rw [List.foldl_cons, foldl_length_preserve g hg t (g acc x), hg acc x]

/-- Two folds over the same list agree when the step functions agree on
the list's elements. -/
theorem foldl_congr_mem {α β : Type} :
    ∀ (xs : List β) (f g : α → β → α) (init : α),
      (∀ acc x, x ∈ xs → f acc x = g acc x) → xs.foldl f init = xs.foldl g init
  | [], _, _, _, _ => rfl
  | x :: t, f, g, init, h => by
    rw [List.foldl_cons, List.foldl_cons, h init x (List.mem_cons_self x t)]
    exact foldl_congr_mem t f g (g init x) (fun acc y hy => h acc y (List.mem_cons_of_mem x hy))

/-- Slots not of the form `(k + i) * 2 + b` are untouched by the
enumerated slot-writing fold. -/
theorem foldl_set_untouched {α : Type} (b : ℕ) :
    ∀ (xs : List α) (k j : ℕ) (acc : List (Option α)),
      (∀ i, i < xs.length → j ≠ (k + i) * 2 + b) →
      ((List.enumFrom k xs).foldl (fun a p => a.set (p.1 * 2 + b) (some p.2)) acc)[j]? =
        acc[j]?
  | [], _, _, _, _ => rfl
  | x :: t, k, j, acc, h => by
    have he : List.enumFrom k (x :: t) = (k, x) :: List.enumFrom (k + 1) t := rfl
    rw [he, List.foldl_cons]
    rw [foldl_set_untouched b t (k + 1) j _ (fun i hi => by
      have := h (i + 1) (by simpa using Nat.succ_lt_succ hi)
      omega)]
    exact List.getElem?_set_ne (by have := h 0 (by simp); omega)

/-- The slot `(k + i) * 2 + b` receives exactly element `i` of the
enumerated list (when in bounds). -/
theorem foldl_set_hit {α : Type} (b : ℕ) :
    ∀ (xs : List α) (k i : ℕ) (acc : List (Option α)),
      i < xs.length → (k + i) * 2 + b < acc.length →
      ((List.enumFrom k xs).foldl
          (fun a p => a.set (p.1 * 2 + b) (some p.2)) acc)[(k + i) * 2 + b]? =
        (xs[i]?).map some
  | [], _, i, _, hi, _ => absurd hi (Nat.not_lt_zero i)
  | x :: t, k, i, acc, hi, hb => by
    have he : List.enumFrom k (x :: t) = (k, x) :: List.enumFrom (k + 1) t := rfl
    rw [he, List.foldl_cons]
    match i with
    | 0 =>
      rw [foldl_set_untouched b t (k + 1) _ _ (fun i hi => by omega)]
      have hb' : k * 2 + b < acc.length := by
        have : (k + 0) * 2 + b = k * 2 + b := by omega
        omega
      rw [show (k + 0) * 2 + b = k * 2 + b by omega]
      rw [List.getElem?_set_eq (by simpa using hb')]
      rw [List.getElem?_cons_zero]
      rfl
    | i + 1 =>
      rw [show (k + (i + 1)) * 2 + b = ((k + 1) + i) * 2 + b by omega]
      rw [foldl_set_hit b t (k + 1) i _ (by simpa using Nat.lt_of_succ_lt_succ hi)
        (by rw [List.length_set]; omega)]
      rw [List.getElem?_cons_succ]

theorem filterMap_id_map_some {α : Type} : ∀ l : List α, (l.map some).filterMap id = l
  | [] => rfl
  | a :: t => by
    rw [List.map_cons, List.filterMap_cons]
    simp [filterMap_id_map_some t]

/-- C3: the OddEven forward permutation (even original indices first,
then odd original indices) followed by the OddEven inverse (first
`ceil(n/2)` permuted elements to even slots, the rest to odd slots)
reproduces the original order exactly, for every list — even and odd
lengths alike. -/
theorem oddEven_roundTrip {α : Type} (l : List α) :
    oddEvenInverse (oddEvenForward l) = l := by
  have henum : ∀ (m : List α), m.enum = List.enumFrom 0 m := fun _ => rfl
  have hle := evensOf_oddsOf_length l
  have hf : oddEvenForward l = evensOf l ++ oddsOf l := by
    simp only [oddEvenForward]
    rw [henum l, enumFrom_filter_even l 0, enumFrom_filter_odd l 0,
      if_pos (show 0 % 2 = 0 from rfl), if_pos (show 0 % 2 = 0 from rfl)]
  rw [hf]
  have hslen : (evensOf l ++ oddsOf l).length = l.length := by
    rw [List.length_append, hle.1, hle.2]; omega
  simp only [oddEvenInverse]
  rw [hslen]
  rw [show (l.length + 1) / 2 = (evensOf l).length from by rw [hle.1]]
  rw [List.take_left, List.drop_left]
  -- replace the guarded write of the second pass by the unguarded one
  have hg2 : ∀ init : List (Option α), (oddsOf l).enum.foldl
      (fun acc p =>
        if p.1 * 2 + 1 < l.length then acc.set (p.1 * 2 + 1) (some p.2) else acc) init =
      (oddsOf l).enum.foldl (fun acc p => acc.set (p.1 * 2 + 1) (some p.2)) init := by
    intro init
    apply foldl_congr_mem
    intro acc p hp
    have hmem := List.mem_enumFrom hp
    have hlt : p.1 < (oddsOf l).length := by
      have := hmem.2.1
      simpa using this
    rw [hle.2] at hlt
    rw [if_pos (by omega)]
  rw [hg2 _]
  -- normalize the first pass's write index to the `* 2 + 0` shape
  have hg1 : ∀ init : List (Option α), (evensOf l).enum.foldl
      (fun acc p => acc.set (p.1 * 2) (some p.2)) init =
      (evensOf l).enum.foldl (fun acc p => acc.set (p.1 * 2 + 0) (some p.2)) init := by
    intro init
    apply foldl_congr_mem
    intro acc p _
    norm_num
  rw [hg1 _, henum (evensOf l), henum (oddsOf l)]
  set slots₁ := (List.enumFrom 0 (evensOf l)).foldl
    (fun (acc : List (Option α)) p => acc.set (p.1 * 2 + 0) (some p.2))
    (List.replicate l.length none) with hs1
  have hs1len : slots₁.length = l.length := by
    rw [hs1, foldl_length_preserve _ (fun acc x => List.length_set acc _ _),
      List.length_replicate]
  suffices hS : (List.enumFrom 0 (oddsOf l)).foldl
      (fun (acc : List (Option α)) p => acc.set (p.1 * 2 + 1) (some p.2)) slots₁ =
      l.map some by
    rw [hS, filterMap_id_map_some]
  apply List.ext_getElem?
  intro j
  by_cases hj : j < l.length
  · by_cases hpar : j % 2 = 0
    · -- even slot: untouched by the odd-slot pass, written by the even-slot pass
      rw [foldl_set_untouched 1 (oddsOf l) 0 j slots₁ (fun i _ => by omega)]
      have hhit := foldl_set_hit 0 (evensOf l) 0 (j / 2)
        (List.replicate l.length (none : Option α))
        (by rw [hle.1]; omega)
        (by rw [List.length_replicate]; omega)
      rw [show (0 + j / 2) * 2 + 0 = j from by omega] at hhit
      rw [hs1, hhit, (evensOf_oddsOf_getElem l (j / 2)).1,
        show 2 * (j / 2) = j from by omega, List.getElem?_map]
    · -- odd slot: written by the odd-slot pass
      have hhit := foldl_set_hit 1 (oddsOf l) 0 (j / 2) slots₁
        (by rw [hle.2]; omega)
        (by rw [hs1len]; omega)
      rw [show (0 + j / 2) * 2 + 1 = j from by omega] at hhit
      rw [hhit, (evensOf_oddsOf_getElem l (j / 2)).2,
        show 2 * (j / 2) + 1 = j from by omega, List.getElem?_map]
  · -- beyond the buffer: never written, and absent from `l.map some`
    rw [foldl_set_untouched 1 (oddsOf l) 0 j slots₁ (fun i hi => by
      rw [hle.2] at hi; omega)]
    rw [hs1, foldl_set_untouched 0 (evensOf l) 0 j _ (fun i hi => by
      rw [hle.1] at hi; omega)]
    rw [List.getElem?_replicate, if_neg (by omega)]
    rw [List.getElem?_eq_none (by rw [List.length_map]; omega)]

/-- C7 amended: the source performs no eager parameter validation and has
no `InvalidParameter` error.  Segmentation called with a negative
interval proceeds without failing and returns the empty segment list (in
both implementations); the interval and parts ranges are enforced only
by the descriptor parser on the decode path (shown here on an
out-of-range parts field `11` and an out-of-range interval `11`) and by
the UI input attributes. -/
theorem no_eager_validation (D I : ℚ) (hD : 0 ≤ D) (hI : I < 0) :
    createAudioSegmentsSpans D I = [] ∧
    editorCreateAudioSegments D I = [] ∧
    parseEncodingCodeE ['s', 'b', '1', '1', 'b', '1', 't'] = .error .partsOutOfRange ∧
    parseEncodingCodeE ['s', 'b', '5', 'b', '1', '1', 't'] = .error .intervalOutOfRange := by
  have hx : D / I ≤ 0 := by
    rcases eq_or_lt_of_le hD with h | h
    · rw [← h]; simp
    · exact le_of_lt (div_neg_of_pos_of_neg h hI)
  refine ⟨?_, ?_, by decide, by decide⟩
  · have h0 : (Int.ceil (D / I)).toNat = 0 := by
      have h1 : Int.ceil (D / I) ≤ Int.ceil (0 : ℚ) := Int.ceil_le_ceil hx
      rw [Int.ceil_zero] at h1
      omega
    simp [createAudioSegmentsSpans, h0]
  · have hk : Int.floor (D / I) ≤ 0 := Int.floor_nonpos hx
    have h0 : (Int.floor (D / I)).toNat = 0 := by omega
    have hcond : ¬ (((Int.floor (D / I) : ℤ) : ℚ) * I < D) := by
      have h1 : ((Int.floor (D / I) : ℤ) : ℚ) ≤ D / I := Int.floor_le _
      have h2 : (D / I) * I ≤ ((Int.floor (D / I) : ℤ) : ℚ) * I :=
        mul_le_mul_of_nonpos_right h1 hI.le
      rw [div_mul_cancel₀ D (ne_of_lt hI)] at h2
      exact not_lt.mpr h2
    simp only [editorCreateAudioSegments, h0, hcond, if_false, List.range_zero,
      List.map_nil]

/-- C7 witness at `D = 5`, `I = -1`. -/
theorem no_eager_validation_witness :
    (0 : ℚ) ≤ 5 ∧ (-1 : ℚ) < 0 ∧
    (createAudioSegmentsSpans 5 (-1) = [] ∧
     editorCreateAudioSegments 5 (-1) = [] ∧
     parseEncodingCodeE ['s', 'b', '1', '1', 'b', '1', 't'] = .error .partsOutOfRange ∧
     parseEncodingCodeE ['s', 'b', '5', 'b', '1', '1', 't'] = .error .intervalOutOfRange) :=
  ⟨by norm_num, by norm_num, no_eager_validation 5 (-1) (by norm_num) (by norm_num)⟩

theorem digitChar_isDigit (d : ℕ) (hd : d < 10) : (digitChar d).isDigit = true := by
  interval_cases d <;> decide

theorem digitChar_ne_b (d : ℕ) (hd : d < 10) : digitChar d ≠ 'b' := by
  interval_cases d <;> decide

theorem digitChar_toNat (d : ℕ) (hd : d < 10) : (digitChar d).toNat = 48 + d := by
  interval_cases d <;> decide

theorem natToDigitsAux_congr :
    ∀ (f₁ f₂ n : ℕ), n < f₁ → n < f₂ → natToDigitsAux f₁ n = natToDigitsAux f₂ n
  | f₁ + 1, f₂ + 1, n, _, _ => by
    simp only [natToDigitsAux]
    by_cases h : n < 10
    · rw [if_pos h, if_pos h]
    · rw [if_neg h, if_neg h,
        natToDigitsAux_congr f₁ f₂ (n / 10) (by omega) (by omega)]
  | 0, _, n, h₁, _ => absurd h₁ (Nat.not_lt_zero n)
  | _ + 1, 0, n, _, h₂ => absurd h₂ (Nat.not_lt_zero n)

/-- The recurrence satisfied by `natToDigits`. -/
theorem natToDigits_eq (n : ℕ) :
    natToDigits n =
      if n < 10 then [digitChar n]
      else natToDigits (n / 10) ++ [digitChar (n % 10)] := by
  show natToDigitsAux (n + 1) n = _
  simp only [natToDigitsAux]
  by_cases h : n < 10
  · rw [if_pos h, if_pos h]
  · rw [if_neg h, if_neg h,
      natToDigitsAux_congr n (n / 10 + 1) (n / 10) (by omega) (by omega)]
    rfl

theorem natToDigits_mem (n : ℕ) :
    ∀ c ∈ natToDigits n, ∃ d, d < 10 ∧ c = digitChar d := by
  induction n using Nat.strong_induction_on with
  | _ n ih =>
    rw [natToDigits_eq n]
    by_cases h : n < 10
    · rw [if_pos h]
      intro c hc
      rw [List.mem_singleton] at hc
      exact ⟨n, h, hc⟩
    · rw [if_neg h]
      intro c hc
      rcases List.mem_append.mp hc with hc | hc
      · exact ih (n / 10) (by omega) c hc
      · rw [List.mem_singleton] at hc
        exact ⟨n % 10, by omega, hc⟩

theorem natToDigits_isDigit (n : ℕ) :
    ∀ c ∈ natToDigits n, c.isDigit = true := fun c hc => by
  obtain ⟨d, hd, rfl⟩ := natToDigits_mem n c hc
  exact digitChar_isDigit d hd

theorem natToDigits_noB (n : ℕ) : ∀ c ∈ natToDigits n, c ≠ 'b' := fun c hc => by
  obtain ⟨d, hd, rfl⟩ := natToDigits_mem n c hc
  exact digitChar_ne_b d hd

theorem natToDigits_ne_nil (n : ℕ) : natToDigits n ≠ [] := by
  rw [natToDigits_eq n]
  by_cases h : n < 10
  · rw [if_pos h]; simp
  · rw [if_neg h]; simp

theorem digitsToNat_concat (l : List Char) (c : Char) :
    digitsToNat (l ++ [c]) = 10 * digitsToNat l + (c.toNat - 48) := by
  unfold digitsToNat
  rw [List.foldl_append]
  rfl

theorem digitsToNat_natToDigits (n : ℕ) : digitsToNat (natToDigits n) = n := by
  induction n using Nat.strong_induction_on with
  | _ n ih =>
    rw [natToDigits_eq n]
    by_cases h : n < 10
    · rw [if_pos h]
      have h1 : digitsToNat [digitChar n] = 10 * 0 + ((digitChar n).toNat - 48) := rfl
      rw [h1, digitChar_toNat n h]
      omega
    · rw [if_neg h, digitsToNat_concat, ih (n / 10) (by omega),
        digitChar_toNat (n % 10) (by omega)]
      omega

theorem digitsToNat_replicate_zero (k : ℕ) (ds : List Char) :
    digitsToNat (List.replicate k '0' ++ ds) = digitsToNat ds := by
  unfold digitsToNat
  rw [List.foldl_append]
  have hz : ∀ j, (List.replicate j '0').foldl (fun a c => 10 * a + (c.toNat - 48)) 0 = 0 := by
    intro j
    induction j with
    | zero => rfl
    | succ j ihj => rw [List.replicate_succ, List.foldl_cons]; simpa using ihj
  rw [hz k]

theorem natToDigits_length_le (n : ℕ) :
    ∀ e, 1 ≤ e → n < 10 ^ e → (natToDigits n).length ≤ e := by
  induction n using Nat.strong_induction_on with
  | _ n ih =>
    intro e he hn
    rw [natToDigits_eq n]
    by_cases h : n < 10
    · rw [if_pos h]
      simpa using he
    · rw [if_neg h, List.length_append]
      have he2 : 2 ≤ e := by
        by_contra hc
        have : e = 1 := by omega
        subst this
        rw [pow_one] at hn
        omega
      have hdiv : n / 10 < 10 ^ (e - 1) := by
        have hp : (10 : ℕ) ^ e = 10 ^ (e - 1) * 10 := by
          rw [← pow_succ]
          congr 1
          omega
        rw [hp] at hn
        omega
      have := ih (n / 10) (by omega) (e - 1) (by omega) hdiv
      simp only [List.length_singleton]
      omega

theorem takeWhile_all_append (p : Char → Bool) :
    ∀ (l r : List Char), (∀ c ∈ l, p c = true) →
      (l ++ r).takeWhile p = l ++ r.takeWhile p
  | [], _, _ => rfl
  | c :: t, r, h => by
    rw [List.cons_append, List.takeWhile_cons_of_pos (h c (List.mem_cons_self c t)),
      takeWhile_all_append p t r (fun x hx => h x (List.mem_cons_of_mem c hx)),
      List.cons_append]

theorem dropWhile_all_append (p : Char → Bool) :
    ∀ (l r : List Char), (∀ c ∈ l, p c = true) →
      (l ++ r).dropWhile p = r.dropWhile p
  | [], _, _ => rfl
  | c :: t, r, h => by
    rw [List.cons_append, List.dropWhile_cons_of_pos (h c (List.mem_cons_self c t)),
      dropWhile_all_append p t r (fun x hx => h x (List.mem_cons_of_mem c hx))]

theorem takeWhile_all (p : Char → Bool) (l : List Char)
    (h : ∀ c ∈ l, p c = true) : l.takeWhile p = l := by
  have := takeWhile_all_append p l [] h
  simpa using this

theorem splitB_no_b : ∀ (l : List Char), (∀ c ∈ l, c ≠ 'b') → splitB l = [l]
  | [], _ => rfl
  | c :: t, h => by
    simp only [splitB]
    rw [if_neg (h c (List.mem_cons_self c t)),
      splitB_no_b t (fun x hx => h x (List.mem_cons_of_mem c hx))]

theorem splitB_append :
    ∀ (l r : List Char), (∀ c ∈ l, c ≠ 'b') →
      splitB (l ++ 'b' :: r) = l :: splitB r
  | [], r, _ => by
    show splitB ('b' :: r) = [] :: splitB r
    simp [splitB]
  | c :: t, r, h => by
    rw [List.cons_append]
    simp only [splitB]
    rw [if_neg (h c (List.mem_cons_self c t)),
      splitB_append t r (fun x hx => h x (List.mem_cons_of_mem c hx))]

theorem jsParseInt_natToDigits (n : ℕ) : jsParseInt (natToDigits n) = some n := by
  unfold jsParseInt
  rw [takeWhile_all Char.isDigit _ (natToDigits_isDigit n)]
  rw [if_neg (by simpa [List.isEmpty_iff] using natToDigits_ne_nil n)]
  rw [digitsToNat_natToDigits]

theorem padZeros_isDigit (e : ℕ) (n : ℕ) :
    ∀ c ∈ padZeros e (natToDigits n), c.isDigit = true := by
  intro c hc
  unfold padZeros at hc
  rcases List.mem_append.mp hc with hc | hc
  · rw [List.eq_of_mem_replicate hc]; decide
  · exact natToDigits_isDigit n c hc

theorem padZeros_length (e : ℕ) (n : ℕ) (h : (natToDigits n).length ≤ e) :
    (padZeros e (natToDigits n)).length = e := by
  unfold padZeros
  rw [List.length_append, List.length_replicate]
  omega

theorem digitsToNat_padZeros (e : ℕ) (n : ℕ) :
    digitsToNat (padZeros e (natToDigits n)) = n := by
  unfold padZeros
  rw [digitsToNat_replicate_zero, digitsToNat_natToDigits]

theorem dropWhile_all (p : Char → Bool) (l : List Char)
    (h : ∀ c ∈ l, p c = true) : l.dropWhile p = [] := by
  have := dropWhile_all_append p l [] h
  simpa using this

theorem natToDigits_isEmpty (n : ℕ) : (natToDigits n).isEmpty = false := by
  simpa [List.isEmpty_iff] using natToDigits_ne_nil n

/-- `parseFloat` inverts the decimal rendering exactly. -/
theorem jsParseFloat_toChars (d : Decimal) : jsParseFloat d.toChars = some d := by
  obtain ⟨m, e⟩ := d
  by_cases he : e = 0
  · subst he
    have ht : Decimal.toChars ⟨m, 0⟩ = natToDigits m := by
      simp [Decimal.toChars]
    rw [ht]
    have h1 : (natToDigits m).takeWhile Char.isDigit = natToDigits m :=
      takeWhile_all _ _ (natToDigits_isDigit m)
    have h2 : (natToDigits m).dropWhile Char.isDigit = [] :=
      dropWhile_all _ _ (natToDigits_isDigit m)
    simp only [jsParseFloat, h1, h2]
    rw [if_neg (by simp [natToDigits_isEmpty m])]
    have hnil : digitsToNat ([] : List Char) = 0 := rfl
    simp only [List.length_nil, pow_zero, mul_one, hnil, Nat.add_zero,
      digitsToNat_natToDigits]
  · have ht : Decimal.toChars ⟨m, e⟩ =
        natToDigits (m / 10 ^ e) ++ '.' :: padZeros e (natToDigits (m % 10 ^ e)) := by
      simp only [Decimal.toChars]
      rw [if_neg he]
    rw [ht]
    have hq := natToDigits_isDigit (m / 10 ^ e)
    have h1 : (natToDigits (m / 10 ^ e) ++
        '.' :: padZeros e (natToDigits (m % 10 ^ e))).takeWhile Char.isDigit =
        natToDigits (m / 10 ^ e) := by
      rw [takeWhile_all_append Char.isDigit _ _ hq,
        List.takeWhile_cons_of_neg (by decide), List.append_nil]
    have h2 : (natToDigits (m / 10 ^ e) ++
        '.' :: padZeros e (natToDigits (m % 10 ^ e))).dropWhile Char.isDigit =
        '.' :: padZeros e (natToDigits (m % 10 ^ e)) := by
      rw [dropWhile_all_append Char.isDigit _ _ hq,
        List.dropWhile_cons_of_neg (by decide)]
    have h3 : (padZeros e (natToDigits (m % 10 ^ e))).takeWhile Char.isDigit =
        padZeros e (natToDigits (m % 10 ^ e)) :=
      takeWhile_all _ _ (padZeros_isDigit e (m % 10 ^ e))
    simp only [jsParseFloat, h1, h2, h3]
    rw [if_neg (by simp [natToDigits_isEmpty])]
    have hlen : (padZeros e (natToDigits (m % 10 ^ e))).length = e :=
      padZeros_length e (m % 10 ^ e)
        (natToDigits_length_le (m % 10 ^ e) e (by omega)
          (Nat.mod_lt m (Nat.pos_pow_of_pos e (by norm_num))))
    rw [hlen, digitsToNat_padZeros, digitsToNat_natToDigits]
    have hval : m / 10 ^ e * 10 ^ e + m % 10 ^ e = m := by
      rw [Nat.mul_comm]
      exact Nat.div_add_mod m (10 ^ e)
    rw [hval]

/-- The integer comparison used for the lower interval bound is exactly
`0.001 ≤ value` on the decimal's rational value. -/
theorem decimalLowBound_iff (d : Decimal) :
    10 ^ d.e ≤ 1000 * d.m ↔ (1 : ℚ) / 1000 ≤ d.val := by
  unfold Decimal.val
  rw [div_le_div_iff (by norm_num) (by positivity)]
  rw [one_mul]
  constructor
  · intro h
    calc ((10 : ℚ)) ^ d.e = ((10 ^ d.e : ℕ) : ℚ) := by push_cast; ring
      _ ≤ ((1000 * d.m : ℕ) : ℚ) := by exact_mod_cast h
      _ = (d.m : ℚ) * 1000 := by push_cast; ring
  · intro h
    have h2 : ((10 ^ d.e : ℕ) : ℚ) ≤ ((1000 * d.m : ℕ) : ℚ) := by
      push_cast
      calc ((10 : ℚ)) ^ d.e ≤ (d.m : ℚ) * 1000 := h
        _ = 1000 * (d.m : ℚ) := by ring
    exact_mod_cast h2

/-- The integer comparison used for the upper interval bound is exactly
`value ≤ 10` on the decimal's rational value. -/
theorem decimalHighBound_iff (d : Decimal) :
    d.m ≤ 10 * 10 ^ d.e ↔ d.val ≤ 10 := by
  unfold Decimal.val
  rw [div_le_iff (by positivity)]
  constructor
  · intro h
    calc (d.m : ℚ) = ((d.m : ℕ) : ℚ) := by norm_num
      _ ≤ ((10 * 10 ^ d.e : ℕ) : ℚ) := by exact_mod_cast h
      _ = 10 * (10 : ℚ) ^ d.e := by push_cast; ring
  · intro h
    have h2 : ((d.m : ℕ) : ℚ) ≤ ((10 * 10 ^ d.e : ℕ) : ℚ) := by
      push_cast
      exact h
    exact_mod_cast h2

/-- All characters of a rendered decimal are digits or the point — in
particular never the separator `'b'`. -/
theorem toChars_noB (d : Decimal) : ∀ c ∈ d.toChars, c ≠ 'b' := by
  obtain ⟨m, e⟩ := d
  intro c hc
  by_cases he : e = 0
  · subst he
    simp only [Decimal.toChars] at hc
    exact natToDigits_noB m c (by simpa using hc)
  · simp only [Decimal.toChars] at hc
    rw [if_neg he] at hc
    rcases List.mem_append.mp hc with hc | hc
    · exact natToDigits_noB _ c hc
    · rcases List.mem_cons.mp hc with hc | hc
      · subst hc; decide
      · unfold padZeros at hc
        rcases List.mem_append.mp hc with hc | hc
        · rw [List.eq_of_mem_replicate hc]; decide
        · exact natToDigits_noB _ c hc

theorem toChars_ne_nil (d : Decimal) : d.toChars ≠ [] := by
  obtain ⟨m, e⟩ := d
  by_cases he : e = 0
  · subst he
    simp only [Decimal.toChars]
    exact natToDigits_ne_nil m
  · simp only [Decimal.toChars]
    rw [if_neg he]
    simp [natToDigits_ne_nil]

theorem concat_isEmpty (l : List Char) (c : Char) : (l ++ [c]).isEmpty = false := by
  cases l <;> rfl

/-- C2: the descriptor codec round-trips.  For every valid parameter set
(scheme Split with parts in `[2,10]` or OddEven, interval value in
`[0.001, 10]`, any reverse flag), parsing the generated code yields
exactly the original parameters. -/
theorem descriptor_roundTrip (p : EncodingParams) (h : validParams p = true) :
    parseEncodingCodeE (generateEncodingCode p) = .ok p := by
  obtain ⟨scheme, interval, reversed⟩ := p
  simp only [validParams, Bool.and_eq_true, decide_eq_true_eq] at h
  obtain ⟨⟨hsch, hlo⟩, hhi⟩ := h
  have hrange : ¬(1000 * interval.m < 10 ^ interval.e ∨
      10 * 10 ^ interval.e < interval.m) :=
    not_or.mpr ⟨not_lt.mpr hlo, not_lt.mpr hhi⟩
  cases scheme with
  | noScheme => simp at hsch
  | split parts =>
    simp only [Bool.and_eq_true, decide_eq_true_eq] at hsch
    obtain ⟨h2, h10⟩ := hsch
    have hparts : ¬(parts < 2 ∨ 10 < parts) := by omega
    have hgen : generateEncodingCode ⟨.split parts, interval, reversed⟩ =
        ['s'] ++ 'b' :: (natToDigits parts ++
          'b' :: (interval.toChars ++ [if reversed then 't' else 'f'])) := by
      simp [generateEncodingCode]
    rw [parseEncodingCodeE, hgen]
    rw [splitB_append ['s'] _ (by
      intro c hc
      rw [List.mem_singleton] at hc
      subst hc
      decide)]
    rw [splitB_append (natToDigits parts) _ (natToDigits_noB parts)]
    rw [splitB_no_b _ (fun c hc => by
      rcases List.mem_append.mp hc with hc | hc
      · exact toChars_noB interval c hc
      · rw [List.mem_singleton] at hc
        subst hc
        cases reversed <;> decide)]
    simp only [parseFields]
    rw [if_neg (by simp [concat_isEmpty])]
    rw [List.getLast?_concat, List.dropLast_concat]
    cases reversed with
    | true =>
      simp only [if_true]
      rw [if_neg (by decide)]
      rw [jsParseFloat_toChars]
      simp [jsParseInt_natToDigits, hrange, hparts]
    | false =>
      simp only [if_false]
      rw [if_neg (by decide)]
      rw [jsParseFloat_toChars]
      simp [jsParseInt_natToDigits, hrange, hparts]
  | oddEven =>
    have hne : ¬((['o', 'e'] : List Char) = ['s']) := by decide
    have hgen : generateEncodingCode ⟨.oddEven, interval, reversed⟩ =
        ['o', 'e'] ++ 'b' :: ([] ++
          'b' :: (interval.toChars ++ [if reversed then 't' else 'f'])) := by
      simp [generateEncodingCode]
    rw [parseEncodingCodeE, hgen]
    rw [splitB_append ['o', 'e'] _ (by
      intro c hc
      rcases List.mem_cons.mp hc with hc | hc
      · subst hc; decide
      · rw [List.mem_singleton] at hc; subst hc; decide)]
    rw [splitB_append [] _ (by intro c hc; cases hc)]
    rw [splitB_no_b _ (fun c hc => by
      rcases List.mem_append.mp hc with hc | hc
      · exact toChars_noB interval c hc
      · rw [List.mem_singleton] at hc
        subst hc
        cases reversed <;> decide)]
    simp only [parseFields]
    rw [if_neg (by simp [concat_isEmpty])]
    rw [List.getLast?_concat, List.dropLast_concat]
    cases reversed with
    | true =>
      simp only [if_true]
      rw [if_neg (by decide)]
      rw [jsParseFloat_toChars]
      simp [hrange, hne]
    | false =>
      simp only [if_false]
      rw [if_neg (by decide)]
      rw [jsParseFloat_toChars]
      simp [hrange, hne]

/-- C2 witness at Split(parts = 5), interval `0.2`, reversed `true`
(the spec's example parameters, serialized by the source as
`"sb5b0.2t"`). -/
theorem descriptor_roundTrip_witness :
    validParams ⟨.split 5, ⟨2, 1⟩, true⟩ = true ∧
    parseEncodingCodeE (generateEncodingCode ⟨.split 5, ⟨2, 1⟩, true⟩) =
      .ok ⟨.split 5, ⟨2, 1⟩, true⟩ :=
  ⟨by decide, descriptor_roundTrip ⟨.split 5, ⟨2, 1⟩, true⟩ (by decide)⟩
